import Mathlib

/-!
Verification of the LSB-steganography core of src/steganography_gui.py.

The core consists of four Python functions:
  message_to_bits / bits_to_message   (the Bit Framer)
  hide_message_in_image / extract_message_from_image   (the Raster Codec)

Shallow embedding choices:
* A character is modelled by its code point (a Nat); a payload is a
  List Nat.  Python ord/chr are mutually inverse bijections on the
  values that occur, so nothing is lost.
* A bit string is a List Bool (Python uses strings of 0/1 characters).
* A raster is a List Pixel in row-major scan order (the order in which
  the two Python functions visit pixels: row 0 first, columns left to
  right); a Pixel is an (R, G, B) triple of Nats.  The Python capacity
  width * height * 3 is 3 * raster.length.
* Python exceptions are modelled with Except String; a function that
  has no raise site always returns Except.ok.
* hide_message_in_image mutates the pixel buffer in place; it is
  modelled in state-passing style, returning the call outcome paired
  with the pixel buffer contents after the call.
-/

/-- Numeric value of a big-endian bit string; models Python int(bits, 2)
(int of the empty string raises in Python; the model returns 0, a case
the embedded call sites never hit with an empty non-slice). -/
def bitsVal (bs : List Bool) : Nat := bs.foldl (fun a b => 2 * a + b.toNat) 0

/-- Big-endian binary digits of n, most significant first, with explicit
fuel to keep the recursion structural; used only with fuel at least n. -/
def natBitsGo : Nat → Nat → List Bool
  | _, 0 => []
  | 0, _ + 1 => []
  | fuel + 1, n + 1 => natBitsGo fuel ((n + 1) / 2) ++ [decide ((n + 1) % 2 = 1)]

/-- Binary digits of n with no leading zeros, as Python format(n, 'b')
produces them (format(0, 'b') is the single digit 0). -/
def natBits (n : Nat) : List Bool := if n = 0 then [false] else natBitsGo n n

/-- Models Python format(n, '0wb'): the binary digits of n, left-padded
with zeros to at least w digits. Like Python, this yields MORE than w
digits when n needs them; no truncation and no range check. -/
def pyFormat (w n : Nat) : List Bool :=
  List.replicate (w - (natBits n).length) false ++ natBits n

/-- Source function message_to_bits (src/steganography_gui.py lines 6-14):
a 32-bit big-endian length prefix followed by each character's code point
in 8-bit big-endian binary.  Python:
  length_bits = format(len(message), '032b')
  message_bits = join(format(ord(c), '08b') for c in message). -/
def message_to_bits (message : List Nat) : List Bool :=
  pyFormat 32 message.length ++ (message.map (pyFormat 8)).flatten

/-- Groups a bit string into 8-bit chunks, the final chunk possibly
shorter, exactly as the Python slice loop
  for i in range(0, len(bits), 8): bits[i:i+8]
does. -/
def chunk8 : List Bool → List (List Bool)
  | [] => []
  | b1 :: b2 :: b3 :: b4 :: b5 :: b6 :: b7 :: b8 :: rest =>
      [b1, b2, b3, b4, b5, b6, b7, b8] :: chunk8 rest
  | l => [l]

/-- Source function bits_to_message (src/steganography_gui.py lines 17-25):
  length = int(bits[:32], 2)
  message_bits = bits[32 : 32 + length * 8]
  chars = [chr(int(message_bits[i:i+8], 2)) for i in range(0, len(message_bits), 8)]. -/
def bits_to_message (bits : List Bool) : List Nat :=
  let length := bitsVal (bits.take 32)
  let message_bits := (bits.drop 32).take (length * 8)
  (chunk8 message_bits).map bitsVal

/-- An RGB pixel: three 8-bit channel values. -/
abbrev Pixel := Nat × Nat × Nat

/-- The channel values of a raster in scan order: row-major over pixels,
R then G then B inside each pixel. -/
def channels (r : List Pixel) : List Nat :=
  (r.map (fun p => [p.1, p.2.1, p.2.2])).flatten

/-- One step of the embed loop body on a single channel: when bits
remain, new_colour = (colour & ~1) | bit, written here as
2 * (colour / 2) + bit since colour & ~1 clears exactly the least
significant bit; when the bit string is exhausted the channel is
returned unchanged (the Python loop leaves it as is and breaks out). -/
def embedChannel : List Bool → Nat → Nat × List Bool
  | [], c => (c, [])
  | b :: bs, _c => (2 * (_c / 2) + b.toNat, bs)

/-- The pixel loop of hide_message_in_image: visits pixels in scan order,
threading the remaining bit string through the three channels of each
pixel.  Once the bit string is exhausted every later channel is kept
unchanged, which is exactly the state the Python break leaves behind. -/
def embedPixels : List Bool → List Pixel → List Pixel
  | _, [] => []
  | bits, p :: rest =>
      let s1 := embedChannel bits p.1
      let s2 := embedChannel s1.2 p.2.1
      let s3 := embedChannel s2.2 p.2.2
      (s1.1, s2.1, s3.1) :: embedPixels s3.2 rest

/-- Source function hide_message_in_image (src/steganography_gui.py
lines 28-64), in state-passing style: first component is the call
outcome (the ValueError raised on over-capacity, or normal return),
second component is the pixel buffer after the call.  The capacity
check precedes the mutation loop, so on error the buffer is the
untouched input. -/
def hide_message_in_image (raster : List Pixel) (message : List Nat) :
    Except String Unit × List Pixel :=
  let bitstring := message_to_bits message
  let total_bits := bitstring.length
  if total_bits > 3 * raster.length then
    (Except.error "The message is too long for the selected image.", raster)
  else
    (Except.ok (), embedPixels bitstring raster)

/-- The channel loop of extract_message_from_image, over the flat scan-order
channel list.  acc is the accumulated bit string (Python: bits), the
Option Nat is message_length.  Python body per channel:
  bits += str(colour & 1)
  if message_length is None and len(bits) == 32: message_length = int(bits, 2)
  if message_length is not None:
      total_needed = 32 + message_length * 8
      if len(bits) >= total_needed: return bits_to_message(bits[:total_needed])
and after the loop: return "".  The two Option cases below are that body
specialized to message_length already set (first if skipped) and not yet
set (length captured exactly when the accumulator reaches 32 bits, then
the return condition checked at once, as in Python). -/
def extractLoop : List Bool → Option Nat → List Nat → Except String (List Nat)
  | _, _, [] => Except.ok []
  | acc, some L, c :: rest =>
      if 32 + L * 8 ≤ (acc ++ [decide (c % 2 = 1)]).length then
        Except.ok (bits_to_message ((acc ++ [decide (c % 2 = 1)]).take (32 + L * 8)))
      else extractLoop (acc ++ [decide (c % 2 = 1)]) (some L) rest
  | acc, none, c :: rest =>
      if (acc ++ [decide (c % 2 = 1)]).length = 32 then
        if 32 + bitsVal (acc ++ [decide (c % 2 = 1)]) * 8 ≤
            (acc ++ [decide (c % 2 = 1)]).length then
          Except.ok (bits_to_message ((acc ++ [decide (c % 2 = 1)]).take
            (32 + bitsVal (acc ++ [decide (c % 2 = 1)]) * 8)))
        else
          extractLoop (acc ++ [decide (c % 2 = 1)])
            (some (bitsVal (acc ++ [decide (c % 2 = 1)]))) rest
      else extractLoop (acc ++ [decide (c % 2 = 1)]) none rest

/-- Source function extract_message_from_image (src/steganography_gui.py
lines 67-90).  The function has no raise site: every path returns
Except.ok (either the decoded message or the empty string at the end of
the scan). -/
def extract_message_from_image (raster : List Pixel) : Except String (List Nat) :=
  extractLoop [] none (channels raster)

/-- The least significant bits of a channel list, in scan order (the bit
sequence the extraction scan recovers). -/
def lsbs (cs : List Nat) : List Bool := cs.map (fun c => decide (c % 2 = 1))

/-- Flips the least significant bit of an 8-bit channel value. -/
def flipBit (c : Nat) : Nat := 2 * (c / 2) + (1 - c % 2)

/-- Corrupts a channel list by flipping the least significant bit of the
channel at scan position k. -/
def flipLSBAt (k : Nat) (cs : List Nat) : List Nat :=
  cs.set k (flipBit (cs.getD k 0))

/-- Big-endian fixed-width binary encoding, written directly from the
words of the spec ("L in big-endian unsigned binary", "8-bit big-endian
binary"): bit i of the output is digit 2 ^ (w - 1 - i) of n. -/
def beBits (w n : Nat) : List Bool :=
  (List.range w).map (fun i => decide (n / 2 ^ (w - 1 - i) % 2 = 1))

/-! ### Arithmetic facts about bit strings -/

theorem bitsVal_go (l : List Bool) : ∀ a : Nat,
    l.foldl (fun a b => 2 * a + b.toNat) a = a * 2 ^ l.length + bitsVal l := by
  induction l with
  | nil => intro a; simp [bitsVal]
  | cons b t ih =>
      intro a
      have hb : bitsVal (b :: t) = b.toNat * 2 ^ t.length + bitsVal t := by
        show t.foldl (fun a b => 2 * a + b.toNat) (2 * 0 + b.toNat) = _
        rw [ih]; ring_nf
      simp only [List.foldl_cons, ih, hb, List.length_cons]
      ring

theorem bitsVal_cons (b : Bool) (t : List Bool) :
    bitsVal (b :: t) = b.toNat * 2 ^ t.length + bitsVal t := by
  show t.foldl (fun a b => 2 * a + b.toNat) (2 * 0 + b.toNat) = _
  rw [bitsVal_go]; ring_nf

theorem bitsVal_append (l1 l2 : List Bool) :
    bitsVal (l1 ++ l2) = bitsVal l1 * 2 ^ l2.length + bitsVal l2 := by
  show (l1 ++ l2).foldl (fun a b => 2 * a + b.toNat) 0 = _
  rw [List.foldl_append, bitsVal_go]
  rfl

theorem bitsVal_concat (l : List Bool) (b : Bool) :
    bitsVal (l ++ [b]) = 2 * bitsVal l + b.toNat := by
  rw [bitsVal_append]
  have : bitsVal [b] = b.toNat := by cases b <;> rfl
  simp [this]; ring

theorem bitsVal_lt (l : List Bool) : bitsVal l < 2 ^ l.length := by
  induction l with
  | nil => simp [bitsVal]
  | cons b t ih =>
      rw [bitsVal_cons]
      have hb : b.toNat * 2 ^ t.length ≤ 2 ^ t.length := by
        cases b <;> simp
      rw [List.length_cons]
      have h2' : (2 : Nat) ^ (t.length + 1) = 2 * 2 ^ t.length := by
        rw [pow_succ]; ring
      rw [h2']
      omega

theorem bitsVal_replicate_false (k : Nat) : bitsVal (List.replicate k false) = 0 := by
  induction k with
  | zero => rfl
  | succ n ih => rw [List.replicate_succ, bitsVal_cons]; simp [ih]

theorem toNat_decide_mod2 (m : Nat) : (decide (m % 2 = 1)).toNat = m % 2 := by
  rcases Nat.mod_two_eq_zero_or_one m with h | h <;> simp [h]

/-! ### natBits and pyFormat -/

theorem natBitsGo_fuel : ∀ fuel n, n ≤ fuel → natBitsGo fuel n = natBitsGo n n := by
  intro fuel
  induction fuel using Nat.strong_induction_on with
  | _ fuel ih =>
      intro n hn
      match fuel, n with
      | fuel, 0 => cases fuel <;> rfl
      | fuel + 1, n + 1 =>
          have hd1 : (n + 1) / 2 ≤ n := by omega
          have e1 : natBitsGo (fuel + 1) (n + 1) =
              natBitsGo fuel ((n + 1) / 2) ++ [decide ((n + 1) % 2 = 1)] := rfl
          have e2 : natBitsGo (n + 1) (n + 1) =
              natBitsGo n ((n + 1) / 2) ++ [decide ((n + 1) % 2 = 1)] := rfl
          rw [e1, e2,
            ih fuel (by omega) ((n + 1) / 2) (by omega),
            ih n (by omega) ((n + 1) / 2) hd1]

theorem bitsVal_natBitsGo : ∀ n, bitsVal (natBitsGo n n) = n := by
  intro n
  induction n using Nat.strong_induction_on with
  | _ n ih =>
      match n with
      | 0 => rfl
      | n + 1 =>
          have e : natBitsGo (n + 1) (n + 1) =
              natBitsGo n ((n + 1) / 2) ++ [decide ((n + 1) % 2 = 1)] := rfl
          rw [e, natBitsGo_fuel n ((n + 1) / 2) (by omega), bitsVal_concat,
            ih ((n + 1) / 2) (by omega), toNat_decide_mod2]
          omega

theorem length_natBitsGo_le : ∀ n w, n < 2 ^ w → (natBitsGo n n).length ≤ w := by
  intro n
  induction n using Nat.strong_induction_on with
  | _ n ih =>
      intro w hw
      match n with
      | 0 => simp [natBitsGo]
      | n + 1 =>
          match w with
          | 0 => simp at hw
          | w + 1 =>
              have e : natBitsGo (n + 1) (n + 1) =
                  natBitsGo n ((n + 1) / 2) ++ [decide ((n + 1) % 2 = 1)] := rfl
              rw [e, natBitsGo_fuel n ((n + 1) / 2) (by omega)]
              have h2 : (2 : Nat) ^ (w + 1) = 2 * 2 ^ w := by rw [pow_succ]; ring
              have hlt : (n + 1) / 2 < 2 ^ w := by omega
              have := ih ((n + 1) / 2) (by omega) w hlt
              simp only [List.length_append, List.length_cons, List.length_nil]
              omega

theorem length_natBitsGo_ge : ∀ n w, 2 ^ w ≤ n → w + 1 ≤ (natBitsGo n n).length := by
  intro n
  induction n using Nat.strong_induction_on with
  | _ n ih =>
      intro w hw
      match n with
      | 0 =>
          exfalso
          have : 0 < 2 ^ w := Nat.pos_pow_of_pos w (by omega)
          omega
      | n + 1 =>
          have e : natBitsGo (n + 1) (n + 1) =
              natBitsGo n ((n + 1) / 2) ++ [decide ((n + 1) % 2 = 1)] := rfl
          rw [e, natBitsGo_fuel n ((n + 1) / 2) (by omega)]
          match w with
          | 0 => simp
          | w + 1 =>
              have h2 : (2 : Nat) ^ (w + 1) = 2 * 2 ^ w := by rw [pow_succ]; ring
              have hge : 2 ^ w ≤ (n + 1) / 2 := by omega
              have hpos : 0 < 2 ^ w := Nat.pos_pow_of_pos w (by omega)
              have := ih ((n + 1) / 2) (by omega) w hge
              simp only [List.length_append, List.length_cons, List.length_nil]
              omega

theorem bitsVal_natBits (n : Nat) : bitsVal (natBits n) = n := by
  unfold natBits
  by_cases h : n = 0
  · subst h; rfl
  · rw [if_neg h, bitsVal_natBitsGo]

theorem length_natBits_le (w n : Nat) (hw : 0 < w) (hn : n < 2 ^ w) :
    (natBits n).length ≤ w := by
  unfold natBits
  by_cases h : n = 0
  · subst h; simpa using hw
  · rw [if_neg h]; exact length_natBitsGo_le n w hn

theorem length_natBits_ge (w n : Nat) (hn : 2 ^ w ≤ n) :
    w + 1 ≤ (natBits n).length := by
  unfold natBits
  have hpos : 0 < 2 ^ w := Nat.pos_pow_of_pos w (by omega)
  rw [if_neg (by omega)]
  exact length_natBitsGo_ge n w hn

theorem length_pyFormat (w n : Nat) (hw : 0 < w) (hn : n < 2 ^ w) :
    (pyFormat w n).length = w := by
  have h := length_natBits_le w n hw hn
  simp only [pyFormat, List.length_append, List.length_replicate]
  omega

theorem length_pyFormat_ge (w n : Nat) : w ≤ (pyFormat w n).length := by
  simp only [pyFormat, List.length_append, List.length_replicate]
  omega

theorem bitsVal_pyFormat (w n : Nat) :
    bitsVal (pyFormat w n) = n := by
  simp only [pyFormat, bitsVal_append, bitsVal_replicate_false, bitsVal_natBits]
  ring

/-! ### beBits: the spec's big-endian encoding -/

theorem length_beBits (w n : Nat) : (beBits w n).length = w := by
  simp [beBits]

theorem beBits_succ (w n : Nat) :
    beBits (w + 1) n = beBits w (n / 2) ++ [decide (n % 2 = 1)] := by
  unfold beBits
  rw [List.range_succ, List.map_append, List.map_cons, List.map_nil]
  congr 1
  · apply List.map_congr_left
    intro i hi
    have hiw : i < w := List.mem_range.mp hi
    have h1 : n / 2 / 2 ^ (w - 1 - i) = n / 2 ^ (w + 1 - 1 - i) := by
      rw [Nat.div_div_eq_div_mul,
        show w + 1 - 1 - i = (w - 1 - i) + 1 from by omega, pow_succ,
        Nat.mul_comm]
    rw [h1]
  · rw [show w + 1 - 1 - w = 0 from by omega, pow_zero, Nat.div_one]

theorem bitsVal_beBits (w : Nat) : ∀ n, bitsVal (beBits w n) = n % 2 ^ w := by
  induction w with
  | zero => intro n; simp [beBits, bitsVal, Nat.mod_one]
  | succ w ih =>
      intro n
      rw [beBits_succ, bitsVal_concat, ih (n / 2), toNat_decide_mod2]
      have h1 : (2 : Nat) ^ (w + 1) = 2 * 2 ^ w := by rw [pow_succ]; ring
      rw [h1, Nat.mod_mul]
      ring

theorem bitsVal_inj : ∀ l1 l2 : List Bool,
    l1.length = l2.length → bitsVal l1 = bitsVal l2 → l1 = l2 := by
  intro l1
  induction l1 with
  | nil =>
      intro l2 hl _
      cases l2 with
      | nil => rfl
      | cons b t => simp at hl
  | cons a t1 ih =>
      intro l2 hl hv
      cases l2 with
      | nil => simp at hl
      | cons b t2 =>
          have ht : t1.length = t2.length := by simpa using hl
          rw [bitsVal_cons, bitsVal_cons, ht] at hv
          have h1 := bitsVal_lt t1
          have h2 := bitsVal_lt t2
          rw [ht] at h1
          have hab : a = b := by
            cases a <;> cases b <;> simp_all <;> omega
          subst hab
          have hv' : bitsVal t1 = bitsVal t2 := by
            cases a <;> simp at hv <;> omega
          rw [ih t2 ht hv']

theorem pyFormat_eq_beBits (w n : Nat) (hw : 0 < w) (hn : n < 2 ^ w) :
    pyFormat w n = beBits w n := by
  apply bitsVal_inj
  · rw [length_pyFormat w n hw hn, length_beBits]
  · rw [bitsVal_pyFormat, bitsVal_beBits, Nat.mod_eq_of_lt hn]

/-! ### Bit Framer lemmas -/

theorem length_payload_bits (m : List Nat) (h : ∀ c ∈ m, c < 256) :
    ((m.map (pyFormat 8)).flatten).length = 8 * m.length := by
  induction m with
  | nil => rfl
  | cons c t ih =>
      have hc : c < 2 ^ 8 := by
        have := h c (List.mem_cons_self c t)
        norm_num
        omega
      simp only [List.map_cons, List.flatten_cons, List.length_append,
        List.length_cons]
      rw [length_pyFormat 8 c (by omega) hc, ih (fun x hx => h x (List.mem_cons_of_mem c hx))]
      ring

theorem length_message_to_bits (m : List Nat) (h : ∀ c ∈ m, c < 256)
    (hlen : m.length < 2 ^ 32) :
    (message_to_bits m).length = 32 + 8 * m.length := by
  simp only [message_to_bits, List.length_append]
  rw [length_pyFormat 32 m.length (by omega) hlen, length_payload_bits m h]

theorem length_message_to_bits_ge (m : List Nat) :
    32 ≤ (message_to_bits m).length := by
  simp only [message_to_bits, List.length_append]
  have := length_pyFormat_ge 32 m.length
  omega

theorem take_message_to_bits (m : List Nat) (hlen : m.length < 2 ^ 32) :
    (message_to_bits m).take 32 = pyFormat 32 m.length := by
  unfold message_to_bits
  rw [List.take_left' (length_pyFormat 32 m.length (by omega) hlen)]

theorem drop_message_to_bits (m : List Nat) (hlen : m.length < 2 ^ 32) :
    (message_to_bits m).drop 32 = (m.map (pyFormat 8)).flatten := by
  unfold message_to_bits
  rw [List.drop_left' (length_pyFormat 32 m.length (by omega) hlen)]

theorem chunk8_flatten : ∀ ls : List (List Bool),
    (∀ l ∈ ls, l.length = 8) → chunk8 ls.flatten = ls := by
  intro ls
  induction ls with
  | nil => intro _; rfl
  | cons l t ih =>
      intro h
      have hl : l.length = 8 := h l (List.mem_cons_self l t)
      rcases l with _ | ⟨b1, _ | ⟨b2, _ | ⟨b3, _ | ⟨b4, _ | ⟨b5, _ | ⟨b6, _ | ⟨b7, _ | ⟨b8, rest⟩⟩⟩⟩⟩⟩⟩⟩ <;>
        simp only [List.length_cons, List.length_nil] at hl <;> try omega
      have hrest : rest = [] := by
        cases rest with
        | nil => rfl
        | cons x xs => simp only [List.length_cons] at hl; omega
      subst hrest
      show chunk8 (b1 :: b2 :: b3 :: b4 :: b5 :: b6 :: b7 :: b8 :: t.flatten) = _
      rw [show chunk8 (b1 :: b2 :: b3 :: b4 :: b5 :: b6 :: b7 :: b8 :: t.flatten) =
            [b1, b2, b3, b4, b5, b6, b7, b8] :: chunk8 t.flatten from rfl,
        ih (fun x hx => h x (List.mem_cons_of_mem _ hx))]

theorem decode_encode (m : List Nat) (h : ∀ c ∈ m, c < 256)
    (hlen : m.length < 2 ^ 32) :
    bits_to_message (message_to_bits m) = m := by
  have hlenflat : ((m.map (pyFormat 8)).flatten).length = 8 * m.length :=
    length_payload_bits m h
  simp only [bits_to_message, take_message_to_bits m hlen, bitsVal_pyFormat,
    drop_message_to_bits m hlen]
  rw [List.take_of_length_le (by omega)]
  have hmem : ∀ l ∈ m.map (pyFormat 8), l.length = 8 := by
    intro l hls
    rcases List.mem_map.mp hls with ⟨c, hc, rfl⟩
    have : c < 2 ^ 8 := by have := h c hc; norm_num; omega
    exact length_pyFormat 8 c (by omega) this
  rw [chunk8_flatten (m.map (pyFormat 8)) hmem, List.map_map]
  have : ∀ c ∈ m, (bitsVal ∘ pyFormat 8) c = c := by
    intro c _
    simp [Function.comp, bitsVal_pyFormat]
  rw [List.map_congr_left this, List.map_id']

/-! ### Raster Codec: embed-side lemmas -/

/-- Channel-level view of the embed loop: walk the flat scan-order channel
list, overwriting each channel's least significant bit with the next bit
while bits remain. -/
def embedChans : List Bool → List Nat → List Nat
  | _, [] => []
  | [], c :: cs => c :: embedChans [] cs
  | b :: bs, c :: cs => (2 * (c / 2) + b.toNat) :: embedChans bs cs

theorem embedChans_nil : ∀ cs : List Nat, embedChans [] cs = cs := by
  intro cs
  induction cs with
  | nil => rfl
  | cons c t ih => rw [embedChans, ih]

theorem channels_cons (p : Pixel) (r : List Pixel) :
    channels (p :: r) = p.1 :: p.2.1 :: p.2.2 :: channels r := by
  simp [channels]

theorem length_channels (r : List Pixel) : (channels r).length = 3 * r.length := by
  induction r with
  | nil => rfl
  | cons p t ih =>
      rw [channels_cons]
      simp only [List.length_cons, ih]
      ring

theorem channels_append (r s : List Pixel) :
    channels (r ++ s) = channels r ++ channels s := by
  simp [channels]

theorem channels_embedPixels : ∀ (ps : List Pixel) (bits : List Bool),
    channels (embedPixels bits ps) = embedChans bits (channels ps) := by
  intro ps
  induction ps with
  | nil => intro bits; cases bits <;> rfl
  | cons p t ih =>
      intro bits
      rcases bits with _ | ⟨x, _ | ⟨y, _ | ⟨z, bs⟩⟩⟩ <;>
        (simp only [embedPixels, embedChannel, channels_cons, embedChans, ih,
          embedChans_nil]; rfl)

theorem length_embedChans : ∀ (cs : List Nat) (bs : List Bool),
    (embedChans bs cs).length = cs.length := by
  intro cs
  induction cs with
  | nil => intro bs; cases bs <;> rfl
  | cons c t ih =>
      intro bs
      cases bs <;> simp only [embedChans, List.length_cons, ih]

theorem getElem?_embedChans : ∀ (cs : List Nat) (bs : List Bool) (i : Nat),
    (embedChans bs cs)[i]? = (cs[i]?).map (fun c =>
      if i < bs.length then 2 * (c / 2) + (bs.getD i false).toNat else c) := by
  intro cs
  induction cs with
  | nil => intro bs i; cases bs <;> simp [embedChans]
  | cons c t ih =>
      intro bs i
      cases bs with
      | nil =>
          rw [embedChans]
          cases i with
          | zero => simp
          | succ j => simpa using ih [] j
      | cons b bs' =>
          rw [embedChans]
          cases i with
          | zero => simp
          | succ j =>
              simp only [List.getElem?_cons_succ, ih bs' j, List.getD_cons_succ]
              cases t[j]? with
              | none => simp
              | some v =>
                  simp only [Option.map_some']
                  by_cases hj : j < bs'.length
                  · rw [if_pos hj, if_pos (by simp only [List.length_cons]; omega)]
                  · rw [if_neg hj, if_neg (by simp only [List.length_cons]; omega)]

theorem lsb_embed (c : Nat) (b : Bool) :
    decide ((2 * (c / 2) + b.toNat) % 2 = 1) = b := by
  cases b <;> simp [Nat.mul_add_mod]

theorem lsbs_embedChans : ∀ (cs : List Nat) (bs : List Bool),
    bs.length ≤ cs.length →
    lsbs (embedChans bs cs) = bs ++ (lsbs cs).drop bs.length := by
  intro cs
  induction cs with
  | nil =>
      intro bs hb
      have : bs = [] := by
        cases bs with
        | nil => rfl
        | cons x xs => simp at hb
      subst this
      rfl
  | cons c t ih =>
      intro bs hb
      cases bs with
      | nil => rw [embedChans_nil]; rfl
      | cons b bs' =>
          rw [embedChans]
          show List.map _ (_ :: embedChans bs' t) = _
          rw [List.map_cons]
          have hb' : bs'.length ≤ t.length := by
            simp only [List.length_cons] at hb; omega
          have ihx := ih bs' hb'
          unfold lsbs at ihx ⊢
          rw [lsb_embed, ihx]
          simp only [List.map_cons, List.length_cons, List.cons_append,
            List.drop_succ_cons]

/-! ### Raster Codec: extract-side characterization -/

/-- Closed form of the extraction scan over a bit string s (the LSBs of
the scanned channels): if at least 32 bits exist, read the declared
length L from the first 32 and return the decoded first 32 + L * 8 bits
when s is long enough; in every other case the scan falls through and
returns the empty message. -/
def extractSpec (s : List Bool) : Except String (List Nat) :=
  if 32 ≤ s.length then
    if 32 + bitsVal (s.take 32) * 8 ≤ s.length then
      Except.ok (bits_to_message (s.take (32 + bitsVal (s.take 32) * 8)))
    else Except.ok []
  else Except.ok []

theorem lsbs_cons (c : Nat) (t : List Nat) :
    lsbs (c :: t) = decide (c % 2 = 1) :: lsbs t := rfl

theorem length_lsbs (cs : List Nat) : (lsbs cs).length = cs.length := by
  simp [lsbs]

theorem extractLoop_some_char : ∀ (cs : List Nat) (acc : List Bool) (L : Nat),
    32 ≤ acc.length → acc.length < 32 + L * 8 →
    extractLoop acc (some L) cs =
      if 32 + L * 8 ≤ acc.length + cs.length then
        Except.ok (bits_to_message ((acc ++ lsbs cs).take (32 + L * 8)))
      else Except.ok [] := by
  intro cs
  induction cs with
  | nil =>
      intro acc L h32 hlt
      rw [if_neg (by simp only [List.length_nil]; omega)]
      rfl
  | cons c rest ih =>
      intro acc L h32 hlt
      rw [extractLoop]
      have hlen : (acc ++ [decide (c % 2 = 1)]).length = acc.length + 1 := by simp
      by_cases hle : 32 + L * 8 ≤ acc.length + 1
      · rw [if_pos (by omega)]
        have hneed : 32 + L * 8 = acc.length + 1 := by omega
        rw [if_pos (by simp only [List.length_cons]; omega)]
        have htake1 : (acc ++ [decide (c % 2 = 1)]).take (32 + L * 8) =
            acc ++ [decide (c % 2 = 1)] := by
          rw [hneed]; exact List.take_of_length_le (by simp)
        have hsplit : acc ++ lsbs (c :: rest) =
            (acc ++ [decide (c % 2 = 1)]) ++ lsbs rest := by
          rw [lsbs_cons]; simp
        have htake2 : (acc ++ lsbs (c :: rest)).take (32 + L * 8) =
            acc ++ [decide (c % 2 = 1)] := by
          rw [hsplit, hneed, List.take_append_of_le_length (by simp),
            List.take_of_length_le (by simp)]
        rw [htake1, htake2]
      · rw [if_neg (by omega)]
        rw [ih (acc ++ [decide (c % 2 = 1)]) L (by simp; omega) (by simp; omega)]
        have hsplit : (acc ++ [decide (c % 2 = 1)]) ++ lsbs rest =
            acc ++ lsbs (c :: rest) := by
          rw [lsbs_cons]; simp
        rw [hsplit]
        by_cases hc2 : 32 + L * 8 ≤ acc.length + (c :: rest).length
        · rw [if_pos (by simp only [List.length_cons] at hc2 ⊢; omega), if_pos hc2]
        · rw [if_neg (by simp only [List.length_cons] at hc2 ⊢; omega), if_neg hc2]

theorem extractLoop_none_char : ∀ (cs : List Nat) (acc : List Bool),
    acc.length < 32 →
    extractLoop acc none cs = extractSpec (acc ++ lsbs cs) := by
  intro cs
  induction cs with
  | nil =>
      intro acc h
      show Except.ok [] = extractSpec (acc ++ lsbs [])
      rw [show lsbs [] = [] from rfl, List.append_nil]
      unfold extractSpec
      rw [if_neg (by omega)]
  | cons c rest ih =>
      intro acc h
      rw [extractLoop]
      have hlen : (acc ++ [decide (c % 2 = 1)]).length = acc.length + 1 := by simp
      have hsplit : acc ++ lsbs (c :: rest) =
          (acc ++ [decide (c % 2 = 1)]) ++ lsbs rest := by
        rw [lsbs_cons]; simp
      by_cases h32 : acc.length + 1 = 32
      · rw [if_pos (by omega)]
        have htk : ((acc ++ [decide (c % 2 = 1)]) ++ lsbs rest).take 32 =
            acc ++ [decide (c % 2 = 1)] := by
          rw [List.take_append_of_le_length (by simp; omega),
            List.take_of_length_le (by simp; omega)]
        by_cases hL : 32 + bitsVal (acc ++ [decide (c % 2 = 1)]) * 8 ≤ acc.length + 1
        · rw [if_pos (by omega)]
          unfold extractSpec
          rw [hsplit, htk]
          have hslen : 32 ≤ ((acc ++ [decide (c % 2 = 1)]) ++ lsbs rest).length := by
            simp; omega
          rw [if_pos hslen, if_pos (by simp at hslen ⊢; omega)]
          have hneed : 32 + bitsVal (acc ++ [decide (c % 2 = 1)]) * 8 = 32 := by omega
          rw [hneed]
          rw [htk, List.take_of_length_le (by simp; omega)]
        · rw [if_neg (by omega)]
          rw [extractLoop_some_char rest (acc ++ [decide (c % 2 = 1)])
            (bitsVal (acc ++ [decide (c % 2 = 1)])) (by omega) (by omega)]
          unfold extractSpec
          rw [hsplit, htk]
          have hlen2 : ((acc ++ [decide (c % 2 = 1)]) ++ lsbs rest).length =
              acc.length + 1 + rest.length := by
            simp [length_lsbs]
            omega
          rw [if_pos (show 32 ≤ ((acc ++ [decide (c % 2 = 1)]) ++ lsbs rest).length by omega)]
          by_cases hc2 : 32 + bitsVal (acc ++ [decide (c % 2 = 1)]) * 8 ≤
              acc.length + 1 + rest.length
          · rw [if_pos (show 32 + bitsVal (acc ++ [decide (c % 2 = 1)]) * 8 ≤
                  (acc ++ [decide (c % 2 = 1)]).length + rest.length by omega),
              if_pos (show 32 + bitsVal (acc ++ [decide (c % 2 = 1)]) * 8 ≤
                  ((acc ++ [decide (c % 2 = 1)]) ++ lsbs rest).length by omega)]
          · rw [if_neg (show ¬(32 + bitsVal (acc ++ [decide (c % 2 = 1)]) * 8 ≤
                  (acc ++ [decide (c % 2 = 1)]).length + rest.length) by omega),
              if_neg (show ¬(32 + bitsVal (acc ++ [decide (c % 2 = 1)]) * 8 ≤
                  ((acc ++ [decide (c % 2 = 1)]) ++ lsbs rest).length) by omega)]
      · rw [if_neg (by omega)]
        rw [ih (acc ++ [decide (c % 2 = 1)]) (by omega), hsplit]

theorem extract_eq_spec (r : List Pixel) :
    extract_message_from_image r = extractSpec (lsbs (channels r)) := by
  unfold extract_message_from_image
  rw [extractLoop_none_char (channels r) [] (by simp), List.nil_append]

/-! ### Helpers for the claim theorems -/

theorem hide_ok (r : List Pixel) (m : List Nat)
    (h : (message_to_bits m).length ≤ 3 * r.length) :
    hide_message_in_image r m =
      (Except.ok (), embedPixels (message_to_bits m) r) := by
  unfold hide_message_in_image
  rw [if_neg (by omega)]

theorem hide_fst_ok (r : List Pixel) (m : List Nat)
    (h : (hide_message_in_image r m).1 = Except.ok ()) :
    (message_to_bits m).length ≤ 3 * r.length := by
  by_contra hc
  unfold hide_message_in_image at h
  rw [if_pos (by omega)] at h
  simp at h

theorem extractSpec_append_frame (p : List Nat) (tail : List Bool)
    (hchars : ∀ c ∈ p, c < 256) (hlen : p.length < 2 ^ 32) :
    extractSpec (message_to_bits p ++ tail) = Except.ok p := by
  have henc := length_message_to_bits p hchars hlen
  unfold extractSpec
  have hslen : (message_to_bits p ++ tail).length =
      (message_to_bits p).length + tail.length := by simp
  have ht32 : (message_to_bits p ++ tail).take 32 = pyFormat 32 p.length := by
    rw [List.take_append_of_le_length (by omega), take_message_to_bits p hlen]
  rw [if_pos (show (32 : Nat) ≤ (message_to_bits p ++ tail).length by omega),
    ht32, bitsVal_pyFormat]
  rw [if_pos (show 32 + p.length * 8 ≤ (message_to_bits p ++ tail).length by omega)]
  have htenc : (message_to_bits p ++ tail).take (32 + p.length * 8) =
      message_to_bits p := by
    rw [show 32 + p.length * 8 = (message_to_bits p).length from by omega,
      List.take_left]
  rw [htenc, decode_encode p hchars hlen]

theorem sum_replicate_nat (n k : Nat) : (List.replicate n k).sum = n * k := by
  induction n with
  | zero => simp
  | succ j ih => rw [List.replicate_succ, List.sum_cons, ih]; ring

theorem lsb_flipBit (c : Nat) : decide (flipBit c % 2 = 1) = !decide (c % 2 = 1) := by
  unfold flipBit
  rcases Nat.mod_two_eq_zero_or_one c with hc | hc <;>
    rw [hc] <;> simp [Nat.mul_add_mod]

theorem lsbs_flip_at (cs : List Nat) (k : Nat) (hk : k < cs.length) :
    (lsbs (flipLSBAt k cs))[k]? ≠ (lsbs cs)[k]? := by
  unfold flipLSBAt lsbs
  rw [List.getElem?_map, List.getElem?_map,
    List.getElem?_set_self (by simpa using hk), List.getElem?_eq_getElem hk]
  have hgd : cs.getD k 0 = cs[k] := by
    rw [List.getD_eq_getElem?_getD, List.getElem?_eq_getElem hk]
    rfl
  rw [hgd]
  simp only [Option.map_some', lsb_flipBit]
  intro hcontra
  rw [Option.some_inj] at hcontra
  cases hdc : decide (cs[k] % 2 = 1) <;> rw [hdc] at hcontra <;> simp at hcontra

theorem lsbs_flip_other (cs : List Nat) (k i : Nat) (hik : i ≠ k) :
    (lsbs (flipLSBAt k cs))[i]? = (lsbs cs)[i]? := by
  unfold flipLSBAt lsbs
  rw [List.getElem?_map, List.getElem?_map,
    List.getElem?_set_ne (fun hh => hik hh.symm)]

/-! ### Claim theorems -/

/-- Claim C1: for every payload p with code points in 0-255 and length
below 2 ^ 32, and every raster whose capacity 3 * pixel-count is at
least 32 + 8 * len(p) bits, hide_message_in_image succeeds and
extract_message_from_image applied to the resulting raster returns
exactly p. -/
theorem C1_roundtrip (r : List Pixel) (p : List Nat)
    (hchars : ∀ c ∈ p, c < 256) (hlen : p.length < 2 ^ 32)
    (hcap : 32 + 8 * p.length ≤ 3 * r.length) :
    (hide_message_in_image r p).1 = Except.ok () ∧
    extract_message_from_image (hide_message_in_image r p).2 = Except.ok p := by
  have henc := length_message_to_bits p hchars hlen
  have hok := hide_ok r p (by omega)
  refine ⟨by rw [hok], ?_⟩
  rw [hok]
  show extract_message_from_image (embedPixels (message_to_bits p) r) = _
  rw [extract_eq_spec, channels_embedPixels r (message_to_bits p),
    lsbs_embedChans (channels r) (message_to_bits p) (by rw [length_channels]; omega)]
  exact extractSpec_append_frame p _ hchars hlen

/-- Witness for C1 at the 4x4-style concrete scenario: 14 pixels
(42 channel-bits) carrying the one-character payload with code point 65. -/
theorem C1_roundtrip_witness :
    (∀ c ∈ ([65] : List Nat), c < 256) ∧ ([65] : List Nat).length < 2 ^ 32 ∧
    32 + 8 * ([65] : List Nat).length ≤
      3 * (List.replicate 14 ((10, 11, 12) : Pixel)).length ∧
    ((hide_message_in_image (List.replicate 14 ((10, 11, 12) : Pixel)) [65]).1 =
        Except.ok () ∧
      extract_message_from_image
        (hide_message_in_image (List.replicate 14 ((10, 11, 12) : Pixel)) [65]).2 =
        Except.ok [65]) :=
  ⟨by decide, by decide, by decide,
    C1_roundtrip (List.replicate 14 ((10, 11, 12) : Pixel)) [65]
      (by decide) (by decide) (by decide)⟩

/-- Claim C2: decoding the encoding of any payload with code points in
0-255 and length below 2 ^ 32 returns the payload itself; both
directions are pure functions of their arguments in this model. -/
theorem C2_decode_encode (p : List Nat) (hchars : ∀ c ∈ p, c < 256)
    (hlen : p.length < 2 ^ 32) :
    bits_to_message (message_to_bits p) = p :=
  decode_encode p hchars hlen

/-- Witness for C2 at the payload with code points 0, 255 and 65. -/
theorem C2_decode_encode_witness :
    (∀ c ∈ ([0, 255, 65] : List Nat), c < 256) ∧
    ([0, 255, 65] : List Nat).length < 2 ^ 32 ∧
    bits_to_message (message_to_bits [0, 255, 65]) = [0, 255, 65] :=
  ⟨by decide, by decide, C2_decode_encode [0, 255, 65] (by decide) (by decide)⟩

/-- Counterexample to claim C3 as stated: the claim omits the length
precondition, but for a payload of length 2 ^ 32 the Python
format(length, '032b') emits 33 bits, so the frame is not 32 + 8 * L
bits long. -/
theorem C3_counterexample :
    ¬((message_to_bits (List.replicate (2 ^ 32) 0)).length =
      32 + 8 * (List.replicate (2 ^ 32) (0 : Nat)).length) := by
  intro hcontra
  have h1 : (natBits (2 ^ 32)).length = 33 := by
    have hle := length_natBitsGo_le (2 ^ 32) 33 (by norm_num)
    have hge := length_natBitsGo_ge (2 ^ 32) 32 (by norm_num)
    unfold natBits
    rw [if_neg (by norm_num)]
    omega
  have h2 : (pyFormat 32 (2 ^ 32)).length = 33 := by
    simp only [pyFormat, List.length_append, List.length_replicate, h1]
  have h3 : (((List.replicate (2 ^ 32) (0 : Nat)).map (pyFormat 8)).flatten).length =
      2 ^ 32 * 8 := by
    rw [List.map_replicate, List.length_flatten, List.map_replicate,
      sum_replicate_nat, show (pyFormat 8 0).length = 8 from rfl]
  have hall : (message_to_bits (List.replicate (2 ^ 32) 0)).length =
      33 + 2 ^ 32 * 8 := by
    simp only [message_to_bits, List.length_append, List.length_replicate, h2, h3]
  rw [hall, List.length_replicate] at hcontra
  generalize (2 : Nat) ^ 32 = k at hcontra
  omega

/-- Claim C3 (amended with the spec's own precondition that the length
fits in 32 bits): for payloads of length L below 2 ^ 32 with code points
in 0-255, the encoding is exactly 32 + 8 * L bits, its first 32 bits are
L in big-endian unsigned binary and the rest is each character's 8-bit
big-endian code, in payload order.  beBits is the spec-side big-endian
encoding, defined independently of the source's format-based one. -/
theorem C3_frame_shape (p : List Nat) (hchars : ∀ c ∈ p, c < 256)
    (hlen : p.length < 2 ^ 32) :
    (message_to_bits p).length = 32 + 8 * p.length ∧
    message_to_bits p = beBits 32 p.length ++ (p.map (beBits 8)).flatten := by
  refine ⟨length_message_to_bits p hchars hlen, ?_⟩
  unfold message_to_bits
  rw [pyFormat_eq_beBits 32 p.length (by omega) hlen]
  have hmap : p.map (pyFormat 8) = p.map (beBits 8) := by
    apply List.map_congr_left
    intro c hc
    exact pyFormat_eq_beBits 8 c (by omega)
      (by have := hchars c hc; norm_num; omega)
  rw [hmap]

/-- Witness for the amended C3 at the one-character payload 65. -/
theorem C3_frame_shape_witness :
    (∀ c ∈ ([65] : List Nat), c < 256) ∧ ([65] : List Nat).length < 2 ^ 32 ∧
    ((message_to_bits [65]).length = 32 + 8 * ([65] : List Nat).length ∧
      message_to_bits [65] =
        beBits 32 ([65] : List Nat).length ++ (([65] : List Nat).map (beBits 8)).flatten) :=
  ⟨by decide, by decide, C3_frame_shape [65] (by decide) (by decide)⟩

/-- Claim C4: when the framed bit string is longer than the capacity
3 * pixel-count, hide_message_in_image fails with the capacity error
and the raster after the call is exactly the input raster, unchanged. -/
theorem C4_capacity_error (r : List Pixel) (m : List Nat)
    (h : 3 * r.length < (message_to_bits m).length) :
    hide_message_in_image r m =
      (Except.error "The message is too long for the selected image.", r) := by
  unfold hide_message_in_image
  rw [if_pos (by omega)]

/-- Witness for C4: the empty raster cannot even hold the 32-bit length
prefix of the empty message. -/
theorem C4_capacity_error_witness :
    3 * ([] : List Pixel).length < (message_to_bits []).length ∧
    hide_message_in_image [] [] =
      (Except.error "The message is too long for the selected image.", []) :=
  ⟨by decide, C4_capacity_error [] [] (by decide)⟩

/-- Claim C5: after a successful embed, the channel at scan position i
carries (original & 0xFE) | bit i of the frame (here 2 * (c / 2) + bit)
for i below the frame length, and every later channel keeps its original
value (positions beyond the raster agree as none = none). -/
theorem C5_embed_effect (r : List Pixel) (m : List Nat)
    (h : (hide_message_in_image r m).1 = Except.ok ()) (i : Nat) :
    (channels (hide_message_in_image r m).2)[i]? =
      ((channels r)[i]?).map (fun c =>
        if i < (message_to_bits m).length
        then 2 * (c / 2) + ((message_to_bits m).getD i false).toNat
        else c) := by
  have hcap := hide_fst_ok r m h
  have hok := hide_ok r m hcap
  rw [hok]
  show (channels (embedPixels (message_to_bits m) r))[i]? = _
  rw [channels_embedPixels, getElem?_embedChans]

/-- Witness for C5 at scan position 0 of an 11-pixel raster carrying the
empty message. -/
theorem C5_embed_effect_witness :
    ((hide_message_in_image (List.replicate 11 ((2, 3, 4) : Pixel)) []).1 =
      Except.ok ()) ∧
    (channels (hide_message_in_image (List.replicate 11 ((2, 3, 4) : Pixel)) []).2)[0]? =
      ((channels (List.replicate 11 ((2, 3, 4) : Pixel)))[0]?).map (fun c =>
        if 0 < (message_to_bits []).length
        then 2 * (c / 2) + ((message_to_bits []).getD 0 false).toNat
        else c) :=
  ⟨by rfl, C5_embed_effect (List.replicate 11 ((2, 3, 4) : Pixel)) [] (by rfl) 0⟩

/-- Counterexample to claim C6 as stated: on a raster with only 3
channel-bits (fewer than 32) extract_message_from_image returns the
empty message through the normal return path; no UnderflowError (no
error of any kind) is raised. -/
theorem C6_counterexample :
    extract_message_from_image [(1, 1, 1)] = Except.ok [] := by rfl

/-- Claim C6 (amended): when the raster is exhausted before the required
32 + 8 * L bits can be accumulated - including any raster with fewer
than 32 channel-bits - extraction falls through and returns the empty
message normally (the scan never reads past the last channel; the model
folds over exactly the channel list). -/
theorem C6_underflow_empty (r : List Pixel)
    (h : 3 * r.length < 32 + bitsVal ((lsbs (channels r)).take 32) * 8) :
    extract_message_from_image r = Except.ok [] := by
  rw [extract_eq_spec]
  unfold extractSpec
  have hslen : (lsbs (channels r)).length = 3 * r.length := by
    rw [length_lsbs, length_channels]
  by_cases h32 : 32 ≤ (lsbs (channels r)).length
  · rw [if_pos h32, if_neg (by omega)]
  · rw [if_neg h32]

/-- Witness for the amended C6 on a 2-pixel raster (6 channel-bits). -/
theorem C6_underflow_empty_witness :
    (3 * ([(0, 2, 4), (6, 8, 9)] : List Pixel).length <
      32 + bitsVal ((lsbs (channels [(0, 2, 4), (6, 8, 9)])).take 32) * 8) ∧
    extract_message_from_image [(0, 2, 4), (6, 8, 9)] = Except.ok [] :=
  ⟨by decide, C6_underflow_empty [(0, 2, 4), (6, 8, 9)] (by decide)⟩

/-- Claim C7: when the raster holds at least required = 32 + 8 * L
channel-bits (L read from the first 32 LSBs in scan order), extraction
returns the decode of exactly the first required recovered bits, and the
result is unchanged by any pixels appended after the stopping point -
the scan never visits them. -/
theorem C7_early_stop (r extra : List Pixel)
    (h32 : 32 ≤ 3 * r.length)
    (hreq : 32 + bitsVal ((lsbs (channels r)).take 32) * 8 ≤ 3 * r.length) :
    extract_message_from_image (r ++ extra) =
      Except.ok (bits_to_message ((lsbs (channels r)).take
        (32 + bitsVal ((lsbs (channels r)).take 32) * 8))) := by
  rw [extract_eq_spec, channels_append]
  have hlsplit : lsbs (channels r ++ channels extra) =
      lsbs (channels r) ++ lsbs (channels extra) := by
    simp [lsbs]
  rw [hlsplit]
  unfold extractSpec
  have hl1 : (lsbs (channels r)).length = 3 * r.length := by
    rw [length_lsbs, length_channels]
  have ht32 : (lsbs (channels r) ++ lsbs (channels extra)).take 32 =
      (lsbs (channels r)).take 32 := by
    rw [List.take_append_of_le_length (by omega)]
  rw [if_pos (show (32 : Nat) ≤ (lsbs (channels r) ++ lsbs (channels extra)).length
      by simp; omega), ht32]
  rw [if_pos (show 32 + bitsVal ((lsbs (channels r)).take 32) * 8 ≤
      (lsbs (channels r) ++ lsbs (channels extra)).length by simp; omega)]
  rw [List.take_append_of_le_length
    (show 32 + bitsVal ((lsbs (channels r)).take 32) * 8 ≤ (lsbs (channels r)).length
      by omega)]

/-- Witness for C7: 11 all-zero pixels (33 bits, declared length 0,
required 32) with one extra appended pixel that the scan never visits. -/
theorem C7_early_stop_witness :
    (32 ≤ 3 * (List.replicate 11 ((0, 0, 0) : Pixel)).length) ∧
    (32 + bitsVal ((lsbs (channels (List.replicate 11 ((0, 0, 0) : Pixel)))).take 32) * 8 ≤
      3 * (List.replicate 11 ((0, 0, 0) : Pixel)).length) ∧
    extract_message_from_image (List.replicate 11 ((0, 0, 0) : Pixel) ++ [(1, 2, 3)]) =
      Except.ok (bits_to_message
        ((lsbs (channels (List.replicate 11 ((0, 0, 0) : Pixel)))).take
          (32 + bitsVal ((lsbs (channels (List.replicate 11 ((0, 0, 0) : Pixel)))).take 32) * 8))) :=
  ⟨by decide, by decide,
    C7_early_stop (List.replicate 11 ((0, 0, 0) : Pixel)) [(1, 2, 3)]
      (by decide) (by decide)⟩

/-- Claim C8 evaluated at the failing input: for the one-character
payload with code point 256 the framer raises nothing at all - Python
format(256, '08b') silently emits 9 bits, so the frame is 41 bits
instead of 40 and decoding it returns the wrong payload [128].  This
contradicts both the spec's CodePointRangeError and the function's own
docstring ("Each character is represented by eight bits"). -/
theorem C8_no_range_check :
    (message_to_bits [256]).length = 41 ∧
    bits_to_message (message_to_bits [256]) = [128] := by
  constructor <;> decide

/-- Claim C9: flipping the LSB of the channel at scan position 5 of a
successfully produced carrier changes bit 5 of the recovered LSB bit
sequence (the bits the extraction scan reads, in scan order) and no
other bit of it. -/
theorem C9_flip_sensitivity (r : List Pixel) (m : List Nat)
    (h : (hide_message_in_image r m).1 = Except.ok ()) (i : Nat) :
    (lsbs (flipLSBAt 5 (channels (hide_message_in_image r m).2)))[5]? ≠
      (lsbs (channels (hide_message_in_image r m).2))[5]? ∧
    (i ≠ 5 → (lsbs (flipLSBAt 5 (channels (hide_message_in_image r m).2)))[i]? =
      (lsbs (channels (hide_message_in_image r m).2))[i]?) := by
  have hcap := hide_fst_ok r m h
  have h32 := length_message_to_bits_ge m
  have hlen : (channels (hide_message_in_image r m).2).length = 3 * r.length := by
    rw [hide_ok r m hcap]
    show (channels (embedPixels (message_to_bits m) r)).length = _
    rw [channels_embedPixels, length_embedChans, length_channels]
  exact ⟨lsbs_flip_at _ 5 (by omega), fun hne => lsbs_flip_other _ 5 i hne⟩

/-- Witness for C9 on the carrier of the empty message in 11 zero
pixels, checking the unchanged position i = 0. -/
theorem C9_flip_sensitivity_witness :
    ((hide_message_in_image (List.replicate 11 ((0, 0, 0) : Pixel)) []).1 =
      Except.ok ()) ∧
    ((lsbs (flipLSBAt 5 (channels
        (hide_message_in_image (List.replicate 11 ((0, 0, 0) : Pixel)) []).2)))[5]? ≠
      (lsbs (channels
        (hide_message_in_image (List.replicate 11 ((0, 0, 0) : Pixel)) []).2))[5]? ∧
    (0 ≠ 5 → (lsbs (flipLSBAt 5 (channels
        (hide_message_in_image (List.replicate 11 ((0, 0, 0) : Pixel)) []).2)))[0]? =
      (lsbs (channels
        (hide_message_in_image (List.replicate 11 ((0, 0, 0) : Pixel)) []).2))[0]?)) :=
  ⟨by rfl, C9_flip_sensitivity (List.replicate 11 ((0, 0, 0) : Pixel)) [] (by rfl) 0⟩

/-- Claim C10: bits_to_message depends only on the first 32 + 8 * L bits
of its input, L being the value of the first 32 bits: on any longer bit
string it returns the same payload as on that prefix. -/
theorem C10_decode_prefix (b : List Bool)
    (h : 32 + bitsVal (b.take 32) * 8 ≤ b.length) :
    bits_to_message b =
      bits_to_message (b.take (32 + bitsVal (b.take 32) * 8)) := by
  have ht32 : (b.take (32 + bitsVal (b.take 32) * 8)).take 32 = b.take 32 := by
    rw [List.take_take]
    congr 1
    omega
  have hdrop : (b.take (32 + bitsVal (b.take 32) * 8)).drop 32 =
      (b.drop 32).take (bitsVal (b.take 32) * 8) :=
    (List.take_drop 32 (bitsVal (b.take 32) * 8) b).symm
  simp only [bits_to_message, ht32, hdrop, List.take_take, Nat.min_self]

/-- Witness for C10 on 33 zero bits (declared length 0, one trailing
bit beyond the frame). -/
theorem C10_decode_prefix_witness :
    (32 + bitsVal ((List.replicate 33 false).take 32) * 8 ≤
      (List.replicate 33 false).length) ∧
    bits_to_message (List.replicate 33 false) =
      bits_to_message ((List.replicate 33 false).take
        (32 + bitsVal ((List.replicate 33 false).take 32) * 8)) :=
  ⟨by decide, C10_decode_prefix (List.replicate 33 false) (by decide)⟩
